import Mathlib

/-!
Verification of the congressional-trading-scanner core against its
specification.  The Python sources are shallowly embedded: machine floats
that only ever hold exact dollar amounts and two-decimal percentages are
modelled as rationals, Python `int()` truncation and `round(x, 2)`
(half-to-even) are modelled exactly on rationals, exceptions are modelled
with `Option`, and calendar dates are modelled as integer day numbers
(`(a - b).days` becomes integer subtraction).  Python's stable `list.sort`
is modelled by `List.insertionSort`, which is stable and sorted, and a
stable sort is extensionally unique.
-/

/-- Two-decimal rounding error bound used in the weight-sum claims. -/
abbrev centi : ℚ := 1 / 100

/-- Round a rational to the nearest integer, halves to even: the exact
semantics of Python `round` on an exactly-represented value. -/
def roundHalfEven (q : ℚ) : ℤ :=
  if q - ⌊q⌋ < 1/2 then ⌊q⌋
  else if 1/2 < q - ⌊q⌋ then ⌊q⌋ + 1
  else if ⌊q⌋ % 2 = 0 then ⌊q⌋ else ⌊q⌋ + 1

/-- Python `round(x, 2)` on an exactly-represented rational. -/
def round2 (q : ℚ) : ℚ := (roundHalfEven (q * 100) : ℚ) / 100

/-- Python `int()` applied to a float value: truncation toward zero. -/
def pyInt (q : ℚ) : ℤ := if 0 ≤ q then ⌊q⌋ else -⌊-q⌋

/-- Characters stripped by Python `str.strip()`. -/
def isPySpace (c : Char) : Bool :=
  c = ' ' || c = '\t' || c = '\n' || c = '\r' || c.toNat = 11 || c.toNat = 12

/-- Python `str.strip()` on a character list. -/
def stripChars (cs : List Char) : List Char :=
  ((cs.dropWhile isPySpace).reverse.dropWhile isPySpace).reverse

/-- Python `str.strip()`. -/
def pyStrip (s : String) : String := ⟨stripChars s.data⟩

/-- Python `str.replace(c, '')`: drop every occurrence of one character. -/
def removeChar (c : Char) (s : String) : String := ⟨s.data.filter (fun d => d ≠ c)⟩

/-- Python `str.upper()` (the sources only feed it ASCII). -/
def pyUpper (s : String) : String := ⟨s.data.map Char.toUpper⟩

/-- Python `str.lower()` (the sources only feed it ASCII). -/
def pyLower (s : String) : String := ⟨s.data.map Char.toLower⟩

/-- Helper for Python `str.split(sep)`: splits keeping empty pieces. -/
def splitCharAux (sep : Char) : List Char → List Char → List (List Char)
  | [], acc => [acc.reverse]
  | c :: rest, acc =>
    if c = sep then acc.reverse :: splitCharAux sep rest []
    else splitCharAux sep rest (c :: acc)

/-- Python `str.split(sep)` for a one-character separator. -/
def pySplit (sep : Char) (s : String) : List String :=
  (splitCharAux sep s.data []).map (fun cs => ⟨cs⟩)

/-- Numeric value of a digit string (most significant first). -/
def digitsVal (cs : List Char) : ℕ := cs.foldl (fun a c => 10 * a + (c.toNat - 48)) 0

/-- Every character is an ASCII digit. -/
def allDigits (cs : List Char) : Bool := cs.all (·.isDigit)

/-- Python `float()` on an unsigned decimal literal (digits with an optional
decimal point).  Exponent, infinity, nan and underscore forms are not
produced by the repository's data and are treated as unparseable. -/
def pyFloatCore? (cs : List Char) : Option ℚ :=
  match splitCharAux '.' cs [] with
  | [w] => if !w.isEmpty && allDigits w then some ((digitsVal w : ℚ)) else none
  | [w, f] =>
    if (!w.isEmpty || !f.isEmpty) && allDigits w && allDigits f then
      some ((digitsVal w : ℚ) + (digitsVal f : ℚ) / (10 : ℚ) ^ f.length)
    else none
  | _ => none

/-- Python `float()` on a string: strip whitespace, optional sign, decimal
literal; `none` models a raised `ValueError`. -/
def pyFloat? (s : String) : Option ℚ :=
  match stripChars s.data with
  | '-' :: rest => (pyFloatCore? rest).map (fun q => -q)
  | '+' :: rest => pyFloatCore? rest
  | cs => pyFloatCore? cs

/-- The range branch of `parse_amount`: when a `-` is present, split and
take the truncated midpoint of `parts[0]` and `parts[1]`; `none` models the
swallowed exception when an endpoint does not parse. -/
def parseRange? (s : String) : Option ℤ :=
  if '-' ∈ s.data then
    match pySplit '-' s with
    | p0 :: p1 :: _ =>
      match pyFloat? (pyStrip p0), pyFloat? (pyStrip p1) with
      | some low, some high => some (pyInt ((low + high) / 2))
      | _, _ => none
    | _ => none
  else none

/-- The `K`/`M` suffix branch of `parse_amount`: on the uppercased string,
drop the suffix letter, parse, scale by the magnitude, truncate. -/
def parseMagnitude? (c : Char) (mult : ℚ) (up : String) : Option ℤ :=
  if c ∈ up.data then
    (pyFloat? (pyStrip (removeChar c up))).map (fun q => pyInt (q * mult))
  else none

/-- `parse_amount` from `congressional_scanner.py` (the copy in
`dan_meuser_strategy.py` is textually identical): `$`/`,` removal, dash
ranges to their midpoint, `K`/`M` magnitude suffixes, plain floats, with
every failure caught and falling through, ending in 0. -/
def parse_amount (amount_str : Option String) : ℤ :=
  match amount_str with
  | none => 0
  | some s0 =>
    if s0 = "" then 0
    else
      let s := pyStrip (removeChar ',' (removeChar '$' s0))
      match parseRange? s with
      | some v => v
      | none =>
        match parseMagnitude? 'K' 1000 (pyUpper s) with
        | some v => v
        | none =>
          match parseMagnitude? 'M' 1000000 (pyUpper s) with
          | some v => v
          | none =>
            match pyFloat? s with
            | some q => pyInt q
            | none => 0

/-- Non-negativity of the unsigned float core: it is built from digit
values only. -/
theorem pyFloatCore?_nonneg {cs : List Char} {q : ℚ} (h : pyFloatCore? cs = some q) :
    0 ≤ q := by
  unfold pyFloatCore? at h
  split at h
  · split at h
    · cases h; positivity
    · cases h
  · split at h
    · cases h; positivity
    · cases h
  · cases h

/-- Members of `stripChars cs` come from `cs`. -/
theorem mem_of_mem_stripChars {c : Char} {cs : List Char} (h : c ∈ stripChars cs) :
    c ∈ cs := by
  unfold stripChars at h
  rw [List.mem_reverse] at h
  have h1 := (List.dropWhile_sublist isPySpace).mem h
  rw [List.mem_reverse] at h1
  exact (List.dropWhile_sublist isPySpace).mem h1

/-- A string whose characters avoid `-` parses, when it parses at all, to a
non-negative float. -/
theorem pyFloat?_nonneg {s : String} {q : ℚ} (hd : '-' ∉ s.data)
    (h : pyFloat? s = some q) : 0 ≤ q := by
  unfold pyFloat? at h
  split at h
  · next cs heq =>
      exfalso
      apply hd
      apply @mem_of_mem_stripChars '-' s.data
      rw [heq]
      exact List.mem_cons_self _ _
  · next cs heq =>
      exact pyFloatCore?_nonneg h
  · exact pyFloatCore?_nonneg h

/-- `pyInt` preserves non-negativity. -/
theorem pyInt_nonneg {q : ℚ} (h : 0 ≤ q) : 0 ≤ pyInt q := by
  unfold pyInt
  rw [if_pos h]
  exact Int.floor_nonneg.mpr h

/-- Pieces produced by `splitCharAux` never contain the separator. -/
theorem splitCharAux_no_sep {sep : Char} :
    ∀ (cs acc : List Char), sep ∉ acc →
      ∀ p ∈ splitCharAux sep cs acc, sep ∉ p := by
  intro cs
  induction cs with
  | nil =>
      intro acc hacc p hp
      simp only [splitCharAux, List.mem_singleton] at hp
      subst hp
      simpa using hacc
  | cons c rest ih =>
      intro acc hacc p hp
      simp only [splitCharAux] at hp
      by_cases hc : c = sep
      · rw [if_pos hc] at hp
        rcases List.mem_cons.mp hp with h1 | h1
        · subst h1; simpa using hacc
        · exact ih [] (List.not_mem_nil sep) p h1
      · rw [if_neg hc] at hp
        refine ih (c :: acc) ?_ p hp
        intro hmem
        rcases List.mem_cons.mp hmem with h1 | h1
        · exact hc h1.symm
        · exact hacc h1

/-- The range branch always yields a non-negative midpoint: the split
pieces cannot contain a minus sign. -/
theorem parseRange?_nonneg {s : String} {v : ℤ} (h : parseRange? s = some v) : 0 ≤ v := by
  unfold parseRange? at h
  split at h
  · split at h
    · next p0 p1 rest heq =>
        split at h
        · next low high hlow hhigh =>
            cases h
            have hmem : ∀ p ∈ pySplit '-' s, '-' ∉ p.data := by
              intro p hp
              unfold pySplit at hp
              rcases List.mem_map.mp hp with ⟨cs, hcs, hcast⟩
              subst hcast
              exact splitCharAux_no_sep s.data [] (List.not_mem_nil _) cs hcs
            have h0 : '-' ∉ (pyStrip p0).data := by
              intro hmem0
              exact hmem p0 (heq ▸ List.mem_cons_self _ _) (mem_of_mem_stripChars hmem0)
            have h1 : '-' ∉ (pyStrip p1).data := by
              intro hmem1
              refine hmem p1 ?_ (mem_of_mem_stripChars hmem1)
              rw [heq]
              exact List.mem_cons_of_mem _ (List.mem_cons_self _ _)
            have hl := pyFloat?_nonneg h0 hlow
            have hh := pyFloat?_nonneg h1 hhigh
            exact pyInt_nonneg (by positivity)
        · cases h
    · cases h
  · cases h

/-- A basic-latin fact about Python `upper`: uppercasing never produces a
minus sign. -/
theorem eq_dash_of_toUpper_eq_dash {c : Char} (h : Char.toUpper c = '-') : c = '-' := by
  by_cases hc : c.toNat ≥ 97 ∧ c.toNat ≤ 122
  · exfalso
    have hdef : Char.toUpper c = Char.ofNat (c.toNat - 32) := by
      show (if c.toNat ≥ 97 ∧ c.toNat ≤ 122 then Char.ofNat (c.toNat - 32) else c) = _
      rw [if_pos hc]
    have key : ∀ n : ℕ, 97 ≤ n → n ≤ 122 → Char.ofNat (n - 32) ≠ '-' := by
      intro n h1 h2
      interval_cases n <;> decide
    exact key c.toNat hc.1 hc.2 (hdef.symm.trans h)
  · have hdef : Char.toUpper c = c := by
      show (if c.toNat ≥ 97 ∧ c.toNat ≤ 122 then Char.ofNat (c.toNat - 32) else c) = _
      rw [if_neg hc]
    exact hdef.symm.trans h

/-- `pyUpper` cannot introduce a minus sign. -/
theorem not_dash_mem_pyUpper {s : String} (h : '-' ∉ s.data) :
    '-' ∉ (pyUpper s).data := by
  intro hmem
  unfold pyUpper at hmem
  rcases List.mem_map.mp hmem with ⟨c, hc, hcu⟩
  exact h (eq_dash_of_toUpper_eq_dash hcu ▸ hc)

/-- `removeChar` removes characters only. -/
theorem mem_of_mem_removeChar {d c : Char} {s : String} (h : d ∈ (removeChar c s).data) :
    d ∈ s.data := by
  unfold removeChar at h
  exact (List.mem_filter.mp h).1

/-- `pyStrip` removes characters only. -/
theorem mem_of_mem_pyStrip {d : Char} {s : String} (h : d ∈ (pyStrip s).data) :
    d ∈ s.data :=
  mem_of_mem_stripChars h

/-- The magnitude branch yields a non-negative value whenever the string it
inspects has no minus sign and the multiplier is non-negative. -/
theorem parseMagnitude?_nonneg {c : Char} {mult : ℚ} {up : String} {v : ℤ}
    (hm : 0 ≤ mult) (hd : '-' ∉ up.data) (h : parseMagnitude? c mult up = some v) :
    0 ≤ v := by
  unfold parseMagnitude? at h
  split at h
  · rcases Option.map_eq_some'.mp h with ⟨q, hq, hv⟩
    have hq0 : 0 ≤ q := by
      refine pyFloat?_nonneg ?_ hq
      intro hmem
      exact hd (mem_of_mem_removeChar (mem_of_mem_pyStrip hmem))
    exact hv ▸ pyInt_nonneg (by positivity)
  · cases h

/-- C2 counterexample: on the string "-5" the parser falls through the
range branch (both split pieces around the dash fail to parse), misses the
K/M branches, and lands in the plain-float branch, which parses the minus
sign: the result is the negative integer -5, refuting the claimed
non-negativity. -/
theorem C2_parse_amount_counterexample :
    parse_amount (some "-5") = -5 ∧ parse_amount (some "-5") < 0 := by
  have h : parse_amount (some "-5") = -5 := by
    simp [parse_amount, parseRange?, parseMagnitude?, pyStrip, removeChar, pyUpper,
      stripChars, isPySpace, pySplit, splitCharAux, pyFloat?, pyFloatCore?,
      digitsVal, allDigits]
    norm_num [pyInt]
  exact ⟨h, by rw [h]; norm_num⟩

/-- C2 (amended): `parse_amount`, a total function on an optional string,
never raises (modelled: every internal failure is an `Option` that falls
through to the final catch-all 0) and returns a non-negative integer for
`None` and for every input string containing no '-' character; an input
containing a parseable negative number, such as "-5", can return a
negative integer. -/
theorem C2_parse_amount_amended (s : String) (h : '-' ∉ s.data) :
    0 ≤ parse_amount (some s) ∧ parse_amount none = 0 := by
  refine ⟨?_, rfl⟩
  by_cases hs : s = ""
  · simp [parse_amount, hs]
  · have hdata : '-' ∉ (pyStrip (removeChar ',' (removeChar '$' s))).data := fun hm =>
      h (mem_of_mem_removeChar (mem_of_mem_removeChar (mem_of_mem_pyStrip hm)))
    simp only [parse_amount]
    rw [if_neg hs]
    cases hr : parseRange? (pyStrip (removeChar ',' (removeChar '$' s))) with
    | some v => simpa [hr] using parseRange?_nonneg hr
    | none =>
      simp only [hr]
      cases hk : parseMagnitude? 'K' 1000
          (pyUpper (pyStrip (removeChar ',' (removeChar '$' s)))) with
      | some v =>
        simpa [hk] using
          parseMagnitude?_nonneg (by norm_num) (not_dash_mem_pyUpper hdata) hk
      | none =>
        simp only [hk]
        cases hm : parseMagnitude? 'M' 1000000
            (pyUpper (pyStrip (removeChar ',' (removeChar '$' s)))) with
        | some v =>
          simpa [hm] using
            parseMagnitude?_nonneg (by norm_num) (not_dash_mem_pyUpper hdata) hm
        | none =>
          simp only [hm]
          cases hf : pyFloat? (pyStrip (removeChar ',' (removeChar '$' s))) with
          | some q => simpa [hf] using pyInt_nonneg (pyFloat?_nonneg hdata hf)
          | none => simp [hf]

/-- C2 witness: the amended theorem applied to the concrete dash-free
input "250K". -/
theorem C2_parse_amount_amended_witness :
    0 ≤ parse_amount (some "250K") ∧ parse_amount none = 0 :=
  C2_parse_amount_amended "250K" (by decide)

/-- C8: the five pinned values of the amount parser: the bracketed range
"$1,001 - $15,000" maps to the floored midpoint 8000, "250K" and "1.5M"
scale by a thousand and a million, and "garbage" and `None` map to 0. -/
theorem C8_parse_amount_examples :
    parse_amount (some "$1,001 - $15,000") = 8000 ∧
    parse_amount (some "250K") = 250000 ∧
    parse_amount (some "1.5M") = 1500000 ∧
    parse_amount (some "garbage") = 0 ∧
    parse_amount none = 0 := by
  refine ⟨?_, ?_, ?_, ?_, rfl⟩ <;>
    · simp [parse_amount, parseRange?, parseMagnitude?, pyStrip, removeChar, pyUpper,
        stripChars, isPySpace, pySplit, splitCharAux, pyFloat?, pyFloatCore?,
        digitsVal, allDigits]
      try norm_num [pyInt]

/-- Canonical normalized transaction record built by
`congressional_scanner.py` (both the sample rows and the rows assembled
from the upstream providers carry exactly these fields). -/
structure Trade where
  ticker : String
  transaction_date : String
  representative : String
  transaction_type : String
  amount : ℤ
  party : String
  asset_description : String
  source : String
deriving DecidableEq

/-- The deduplication key used by `fetch_all_trades`:
`(ticker, representative, transaction_date)`. -/
def tradeKey (t : Trade) : String × String × String :=
  (t.ticker, t.representative, t.transaction_date)

/-- The deduplication loop of `fetch_all_trades`, carrying the `seen` set
of keys (modelled as the list of keys added so far). -/
def dedupAux : List Trade → List (String × String × String) → List Trade
  | [], _ => []
  | t :: rest, seen =>
    if tradeKey t ∈ seen then dedupAux rest seen
    else t :: dedupAux rest (tradeKey t :: seen)

/-- Deduplication of the fetched trades (`fetch_all_trades`, the loop over
`trades` building `unique_trades`). -/
def dedupTrades (trades : List Trade) : List Trade := dedupAux trades []

/-- Specification-side characterization: the first-seen occurrence of every
distinct key, in first-seen order. -/
def firstOccurrences : List Trade → List Trade
  | [] => []
  | t :: rest =>
    t :: firstOccurrences (rest.filter (fun u => tradeKey u ≠ tradeKey t))
termination_by l => l.length
decreasing_by simp_wf; exact Nat.lt_succ_of_le (List.length_filter_le _ _)

/-- The dedup loop computes first occurrences of the keys not yet seen. -/
theorem dedupAux_eq_firstOccurrences : ∀ (trades : List Trade) (seen : List (String × String × String)),
    dedupAux trades seen = firstOccurrences (trades.filter (fun u => tradeKey u ∉ seen)) := by
  intro trades
  induction trades with
  | nil => intro seen; simp [dedupAux, firstOccurrences]
  | cons t rest ih =>
    intro seen
    by_cases hseen : tradeKey t ∈ seen
    · rw [dedupAux, if_pos hseen, List.filter_cons_of_neg (by simpa using hseen), ih]
    · rw [dedupAux, if_neg hseen, List.filter_cons_of_pos (by simpa using hseen),
        firstOccurrences, ih, List.filter_filter]
      refine congrArg _ (congrArg _ (List.filter_congr ?_))
      intro u _
      simp [List.mem_cons, not_or, Bool.and_comm]

/-- The dedup output is a sublist of the input. -/
theorem dedupAux_sublist : ∀ (trades : List Trade) (seen : List (String × String × String)),
    (dedupAux trades seen).Sublist trades := by
  intro trades
  induction trades with
  | nil => intro seen; simp [dedupAux]
  | cons t rest ih =>
    intro seen
    rw [dedupAux]
    by_cases hseen : tradeKey t ∈ seen
    · rw [if_pos hseen]; exact (ih seen).cons t
    · rw [if_neg hseen]; exact (ih _).cons₂ t

/-- Keys of the dedup output: exactly the input keys not yet seen. -/
theorem mem_map_tradeKey_dedupAux :
    ∀ (trades : List Trade) (seen : List (String × String × String)) (k : String × String × String),
    k ∈ (dedupAux trades seen).map tradeKey ↔ k ∈ trades.map tradeKey ∧ k ∉ seen := by
  intro trades
  induction trades with
  | nil => intro seen k; simp [dedupAux]
  | cons t rest ih =>
    intro seen k
    rw [dedupAux]
    by_cases hseen : tradeKey t ∈ seen
    · rw [if_pos hseen, ih]
      simp only [List.map_cons, List.mem_cons]
      constructor
      · rintro ⟨h1, h2⟩; exact ⟨Or.inr h1, h2⟩
      · rintro ⟨h1 | h1, h2⟩
        · exact absurd (h1 ▸ hseen) h2
        · exact ⟨h1, h2⟩
    · rw [if_neg hseen]
      simp only [List.map_cons, List.mem_cons, ih, not_or]
      constructor
      · rintro (h1 | ⟨h1, h2, h3⟩)
        · exact ⟨Or.inl h1, h1 ▸ hseen⟩
        · exact ⟨Or.inr h1, h3⟩
      · rintro ⟨h1 | h1, h2⟩
        · exact Or.inl h1
        · by_cases hk : k = tradeKey t
          · exact Or.inl hk
          · exact Or.inr ⟨h1, hk, h2⟩

/-- The dedup output has pairwise-distinct keys. -/
theorem nodup_map_tradeKey_dedupAux :
    ∀ (trades : List Trade) (seen : List (String × String × String)),
    ((dedupAux trades seen).map tradeKey).Nodup := by
  intro trades
  induction trades with
  | nil => intro seen; simp [dedupAux]
  | cons t rest ih =>
    intro seen
    rw [dedupAux]
    by_cases hseen : tradeKey t ∈ seen
    · rw [if_pos hseen]; exact ih seen
    · rw [if_neg hseen]
      simp only [List.map_cons, List.nodup_cons]
      refine ⟨fun hmem => ?_, ih _⟩
      exact ((mem_map_tradeKey_dedupAux rest _ _).mp hmem).2 (List.mem_cons_self _ _)

/-- In a list without duplicates, a member is matched exactly once. -/
theorem countP_eq_one_of_nodup_of_mem {α : Type} [DecidableEq α] {l : List α} {a : α}
    (hn : l.Nodup) (ha : a ∈ l) : l.countP (fun x => x = a) = 1 := by
  induction l with
  | nil => simp at ha
  | cons b l ih =>
    rw [List.countP_cons]
    rcases List.mem_cons.mp ha with h | h
    · subst h
      have hb : l.countP (fun x => x = a) = 0 := by
        rw [List.countP_eq_zero]
        intro x hx
        simp only [decide_eq_true_eq]
        rintro rfl
        exact (List.nodup_cons.mp hn).1 hx
      simp [hb]
    · have hne : ¬(b = a) := by rintro rfl; exact (List.nodup_cons.mp hn).1 h
      rw [ih (List.nodup_cons.mp hn).2 h]
      simp [hne]

/-- C5: deduplication returns exactly the first-seen occurrence of each
distinct (ticker, politician, date) triple, in first-seen order: the
output equals the first-occurrence subsequence of the input, its keys are
pairwise distinct and cover exactly the input's keys (so two records equal
on the triple but differing in source collapse to one entry), and the
output is never longer than the input. -/
theorem C5_dedup_first_seen (trades : List Trade) :
    dedupTrades trades = firstOccurrences trades ∧
    (dedupTrades trades).Sublist trades ∧
    ((dedupTrades trades).map tradeKey).Nodup ∧
    (∀ k, k ∈ trades.map tradeKey ↔ k ∈ (dedupTrades trades).map tradeKey) ∧
    (∀ t ∈ trades,
      ((dedupTrades trades).map tradeKey).countP (fun k => k = tradeKey t) = 1) ∧
    (dedupTrades trades).length ≤ trades.length := by
  refine ⟨?_, dedupAux_sublist trades [], nodup_map_tradeKey_dedupAux trades [], ?_, ?_, ?_⟩
  · rw [dedupTrades, dedupAux_eq_firstOccurrences]
    congr 1
    simp
  · intro k
    rw [dedupTrades, mem_map_tradeKey_dedupAux]
    simp
  · intro t ht
    have hmem : tradeKey t ∈ (dedupTrades trades).map tradeKey := by
      rw [dedupTrades, mem_map_tradeKey_dedupAux]
      exact ⟨List.mem_map_of_mem tradeKey ht, List.not_mem_nil _⟩
    exact countP_eq_one_of_nodup_of_mem (nodup_map_tradeKey_dedupAux trades []) hmem
  · exact (dedupAux_sublist trades []).length_le

/-- Insertion-ordered dictionary keys: the loop `for trade in trades:
ticker_purchases[ticker].append(...)` visits dict keys in first-occurrence
order; `firstSeenAux` carries the set of keys created so far. -/
def firstSeenAux {α : Type} [DecidableEq α] : List α → List α → List α
  | [], _ => []
  | a :: l, seen => if a ∈ seen then firstSeenAux l seen else a :: firstSeenAux l (a :: seen)

/-- First-occurrence order of the distinct elements of a list: the key
order of a Python dict filled by a loop over the list. -/
def firstSeen {α : Type} [DecidableEq α] (l : List α) : List α := firstSeenAux l []

/-- Membership in `firstSeenAux`. -/
theorem mem_firstSeenAux {α : Type} [DecidableEq α] :
    ∀ (l seen : List α) (x : α), x ∈ firstSeenAux l seen ↔ x ∈ l ∧ x ∉ seen := by
  intro l
  induction l with
  | nil => intro seen x; simp [firstSeenAux]
  | cons a l ih =>
    intro seen x
    rw [firstSeenAux]
    by_cases ha : a ∈ seen
    · rw [if_pos ha, ih]
      simp only [List.mem_cons]
      constructor
      · rintro ⟨h1, h2⟩; exact ⟨Or.inr h1, h2⟩
      · rintro ⟨h1 | h1, h2⟩
        · exact absurd (h1 ▸ ha) h2
        · exact ⟨h1, h2⟩
    · rw [if_neg ha]
      simp only [List.mem_cons, ih, not_or]
      constructor
      · rintro (h1 | ⟨h1, h2, h3⟩)
        · exact ⟨Or.inl h1, h1 ▸ ha⟩
        · exact ⟨Or.inr h1, h3⟩
      · rintro ⟨h1 | h1, h2⟩
        · exact Or.inl h1
        · by_cases hx : x = a
          · exact Or.inl hx
          · exact Or.inr ⟨h1, hx, h2⟩

/-- Membership in `firstSeen` is membership in the underlying list. -/
theorem mem_firstSeen {α : Type} [DecidableEq α] (l : List α) (x : α) :
    x ∈ firstSeen l ↔ x ∈ l := by
  rw [firstSeen, mem_firstSeenAux]
  simp

/-- `firstSeenAux` never repeats an element. -/
theorem nodup_firstSeenAux {α : Type} [DecidableEq α] :
    ∀ (l seen : List α), (firstSeenAux l seen).Nodup := by
  intro l
  induction l with
  | nil => intro seen; simp [firstSeenAux]
  | cons a l ih =>
    intro seen
    rw [firstSeenAux]
    by_cases ha : a ∈ seen
    · rw [if_pos ha]; exact ih seen
    · rw [if_neg ha]
      refine List.nodup_cons.mpr ⟨fun hmem => ?_, ih _⟩
      exact ((mem_firstSeenAux l _ a).mp hmem).2 (List.mem_cons_self _ _)

/-- `firstSeen` never repeats an element. -/
theorem nodup_firstSeen {α : Type} [DecidableEq α] (l : List α) : (firstSeen l).Nodup :=
  nodup_firstSeenAux l []

/-- The needle is an initial segment of the haystack. -/
def hasPre : List Char → List Char → Bool
  | [], _ => true
  | _ :: _, [] => false
  | c :: cs, d :: ds => c = d && hasPre cs ds

/-- Python substring test `needle in hay` on character lists. -/
def hasSub : List Char → List Char → Bool
  | n, [] => n.isEmpty
  | n, d :: ds => hasPre n (d :: ds) || hasSub n ds

/-- Python `needle in hay` on strings. -/
def strContains (hay needle : String) : Bool := hasSub needle.data hay.data

/-- Signal record: the Python signal dicts are heterogeneous, so every
detector-specific payload key is an optional field; `signal_type`,
`ticker` and `priority` are present on every signal. -/
structure Signal where
  signal_type : String
  ticker : String
  priority : ℕ
  count : Option ℕ := none
  politicians : Option (List String) := none
  total_amount : Option ℤ := none
  avg_amount : Option ℤ := none
  dates : Option (List String) := none
  politician : Option String := none
  amount : Option ℤ := none
  transaction_type : Option String := none
  date : Option String := none
  committee : Option String := none
  performer_name : Option String := none
  reason : Option String := none
  trades : Option (List Trade) := none
  trade : Option Trade := none
deriving DecidableEq

/-- Purchase-typed trades, as filtered by `detect_clusters`. -/
def purchasesOf (trades : List Trade) : List Trade :=
  trades.filter (fun t => t.transaction_type = "purchase")

/-- Number of purchase-typed trades of one ticker. -/
def purchaseCount (trades : List Trade) (tk : String) : ℕ :=
  ((purchasesOf trades).filter (fun t => t.ticker = tk)).length

/-- `detect_clusters`: group purchases by ticker, emit one CLUSTER signal
per ticker whose purchase count reaches the threshold; payload carries the
participating politicians, total and floor-averaged amount, and dates. -/
def detect_clusters (cluster_threshold : ℕ) (trades : List Trade) : List Signal :=
  let purchases := purchasesOf trades
  ((firstSeen (purchases.map (fun t => t.ticker))).filter
      (fun tk => cluster_threshold ≤ (purchases.filter (fun t => t.ticker = tk)).length)).map
    (fun tk =>
      let ts := purchases.filter (fun t => t.ticker = tk)
      { signal_type := "CLUSTER", ticker := tk,
        count := some ts.length,
        politicians := some (ts.map (fun t => t.representative)),
        total_amount := some ((ts.map (fun t => t.amount)).sum),
        avg_amount := some (Int.fdiv ((ts.map (fun t => t.amount)).sum) ts.length),
        dates := some (ts.map (fun t => t.transaction_date)),
        trades := some ts,
        priority := 1 })

/-- `detect_large_trades`: one LARGE_TRADE signal per trade whose amount
reaches the configured floor. -/
def detect_large_trades (min_trade_size : ℤ) (trades : List Trade) : List Signal :=
  (trades.filter (fun t => min_trade_size ≤ t.amount)).map (fun t =>
    { signal_type := "LARGE_TRADE", ticker := t.ticker,
      politician := some t.representative, amount := some t.amount,
      transaction_type := some t.transaction_type, date := some t.transaction_date,
      trade := some t, priority := 4 })

/-- `detect_top_performer_trades`: first watch-list name contained
(case-insensitively) in the trade's politician name wins; `break` = first
match only. -/
def detect_top_performer_trades (top_performers : List String) (trades : List Trade) :
    List Signal :=
  trades.filterMap (fun t =>
    (top_performers.find? (fun p => strContains (pyLower t.representative) (pyLower p))).map
      (fun p =>
        { signal_type := "TOP_PERFORMER", ticker := t.ticker,
          politician := some t.representative, amount := some t.amount,
          transaction_type := some t.transaction_type, date := some t.transaction_date,
          performer_name := some p, trade := some t, priority := 3 }))

/-- `detect_committee_aligned_trades`: one COMMITTEE_ALIGNED signal per
(trade, matching committee) pair — no break, so several committees can
fire for the same trade. -/
def detect_committee_aligned_trades (committee_alignments : List (String × List String))
    (trades : List Trade) : List Signal :=
  trades.flatMap (fun t =>
    committee_alignments.filterMap (fun ca =>
      if t.ticker ∈ ca.2 then
        some { signal_type := "COMMITTEE_ALIGNED", ticker := t.ticker,
               politician := some t.representative, committee := some ca.1,
               amount := some t.amount, transaction_type := some t.transaction_type,
               date := some t.transaction_date, trade := some t, priority := 5 }
      else none))

/-- `detect_unusual_activity`: OPTIONS_TRADE when the lowercased asset
description contains "option", "call" or "put". -/
def detect_unusual_activity (trades : List Trade) : List Signal :=
  trades.filterMap (fun t =>
    if strContains (pyLower t.asset_description) "option" ||
       strContains (pyLower t.asset_description) "call" ||
       strContains (pyLower t.asset_description) "put" then
      some { signal_type := "OPTIONS_TRADE", ticker := t.ticker,
             politician := some t.representative, amount := some t.amount,
             transaction_type := some t.transaction_type, date := some t.transaction_date,
             reason := some "Options trade detected", trade := some t, priority := 2 }
    else none)

/-- Scanner configuration values loaded from `config.json`. -/
structure ScannerConfig where
  min_trade_size : ℤ
  cluster_threshold : ℕ
  top_performers : List String
  committee_alignments : List (String × List String)

/-- The sort key of `scan_for_signals`: ascending priority. -/
def prioLE (a b : Signal) : Prop := a.priority ≤ b.priority

instance : DecidableRel prioLE := fun a b => Nat.decLe a.priority b.priority

instance : IsTotal Signal prioLE := ⟨fun a b => Nat.le_total a.priority b.priority⟩

instance : IsTrans Signal prioLE := ⟨fun _ _ _ => Nat.le_trans⟩

/-- `scan_for_signals`: concatenate the five detector outputs in source
order and stable-sort by priority (Python `list.sort` is stable, and a
stable sort is extensionally unique, so insertion sort models it). -/
def scan_for_signals (cfg : ScannerConfig) (trades : List Trade) : List Signal :=
  List.insertionSort prioLE
    (detect_clusters cfg.cluster_threshold trades ++
     detect_large_trades cfg.min_trade_size trades ++
     detect_top_performer_trades cfg.top_performers trades ++
     detect_committee_aligned_trades cfg.committee_alignments trades ++
     detect_unusual_activity trades)

/-- Inserting into a list never reorders equal-priority signals: the
filtered slice at any priority gains the new signal at the front exactly
when it has that priority (the insertion point sits before every
equal-priority element because the elements passed over are strictly
smaller). -/
theorem filter_orderedInsert_priority (p : ℕ) (x : Signal) (l : List Signal) :
    (List.orderedInsert prioLE x l).filter (fun s => s.priority = p) =
      if x.priority = p then x :: l.filter (fun s => s.priority = p)
      else l.filter (fun s => s.priority = p) := by
  induction l with
  | nil =>
    by_cases hx : x.priority = p <;> simp [List.orderedInsert, hx]
  | cons b l ih =>
    rw [List.orderedInsert]
    by_cases hle : prioLE x b
    · rw [if_pos hle]
      by_cases hx : x.priority = p <;> by_cases hb : b.priority = p <;>
        simp [List.filter_cons, hx, hb]
    · rw [if_neg hle, List.filter_cons, ih]
      unfold prioLE at hle
      have hbx : b.priority < x.priority := Nat.lt_of_not_le hle
      by_cases hx : x.priority = p
      · have hb : ¬(b.priority = p) := by omega
        simp [hx, hb, List.filter_cons]
      · by_cases hb : b.priority = p <;> simp [hx, hb, List.filter_cons]

/-- Stability of the priority sort: the slice of the sorted output at each
priority equals the slice of the input, in input order. -/
theorem filter_insertionSort_priority (p : ℕ) (l : List Signal) :
    (List.insertionSort prioLE l).filter (fun s => s.priority = p) =
      l.filter (fun s => s.priority = p) := by
  induction l with
  | nil => rfl
  | cons x l ih =>
    rw [List.insertionSort, filter_orderedInsert_priority, ih]
    by_cases hx : x.priority = p <;> simp [hx, List.filter_cons]

/-- Every cluster signal carries priority 1. -/
theorem detect_clusters_priority (θ : ℕ) (trades : List Trade) :
    ∀ s ∈ detect_clusters θ trades, s.priority = 1 := by
  intro s hs
  unfold detect_clusters at hs
  rcases List.mem_map.mp hs with ⟨tk, _, rfl⟩
  rfl

/-- Every options signal carries priority 2. -/
theorem detect_unusual_priority (trades : List Trade) :
    ∀ s ∈ detect_unusual_activity trades, s.priority = 2 := by
  intro s hs
  unfold detect_unusual_activity at hs
  rcases List.mem_filterMap.mp hs with ⟨t, _, ht⟩
  split at ht
  · cases ht; rfl
  · cases ht

/-- Every top-performer signal carries priority 3. -/
theorem detect_top_performer_priority (performers : List String) (trades : List Trade) :
    ∀ s ∈ detect_top_performer_trades performers trades, s.priority = 3 := by
  intro s hs
  unfold detect_top_performer_trades at hs
  rcases List.mem_filterMap.mp hs with ⟨t, _, ht⟩
  rcases Option.map_eq_some'.mp ht with ⟨pf, _, rfl⟩
  rfl

/-- Every large-trade signal carries priority 4. -/
theorem detect_large_trades_priority (minSize : ℤ) (trades : List Trade) :
    ∀ s ∈ detect_large_trades minSize trades, s.priority = 4 := by
  intro s hs
  unfold detect_large_trades at hs
  rcases List.mem_map.mp hs with ⟨t, _, rfl⟩
  rfl

/-- Every committee-aligned signal carries priority 5. -/
theorem detect_committee_priority (alignments : List (String × List String))
    (trades : List Trade) :
    ∀ s ∈ detect_committee_aligned_trades alignments trades, s.priority = 5 := by
  intro s hs
  unfold detect_committee_aligned_trades at hs
  rcases List.mem_flatMap.mp hs with ⟨t, _, ht⟩
  rcases List.mem_filterMap.mp ht with ⟨ca, _, hca⟩
  split at hca
  · cases hca; rfl
  · cases hca

/-- C6: the aggregator concatenates the detector outputs in source order
(cluster, large-trade, top-performer, committee-aligned, options) and
stable-sorts by ascending priority with the fixed priorities cluster=1,
options=2, top_performer=3, large_trade=4, committee_aligned=5; ties
within one priority keep detector emission order (the filtered slice at
each priority equals the concatenation's slice), and sorting the already
sorted output again reproduces it unchanged. -/
theorem C6_aggregator_stable_sort (cfg : ScannerConfig) (trades : List Trade) :
    List.Sorted prioLE (scan_for_signals cfg trades) ∧
    (∀ p : ℕ,
      (scan_for_signals cfg trades).filter (fun s => s.priority = p) =
        (detect_clusters cfg.cluster_threshold trades ++
         detect_large_trades cfg.min_trade_size trades ++
         detect_top_performer_trades cfg.top_performers trades ++
         detect_committee_aligned_trades cfg.committee_alignments trades ++
         detect_unusual_activity trades).filter (fun s => s.priority = p)) ∧
    (∀ s ∈ detect_clusters cfg.cluster_threshold trades, s.priority = 1) ∧
    (∀ s ∈ detect_unusual_activity trades, s.priority = 2) ∧
    (∀ s ∈ detect_top_performer_trades cfg.top_performers trades, s.priority = 3) ∧
    (∀ s ∈ detect_large_trades cfg.min_trade_size trades, s.priority = 4) ∧
    (∀ s ∈ detect_committee_aligned_trades cfg.committee_alignments trades, s.priority = 5) ∧
    List.insertionSort prioLE (scan_for_signals cfg trades) = scan_for_signals cfg trades := by
  refine ⟨List.sorted_insertionSort prioLE _,
    fun p => filter_insertionSort_priority p _,
    detect_clusters_priority _ trades,
    detect_unusual_priority trades,
    detect_top_performer_priority _ trades,
    detect_large_trades_priority _ trades,
    detect_committee_priority _ trades,
    (List.sorted_insertionSort prioLE _).insertionSort_eq⟩

/-- Sample cluster input: three purchases of NVDA by three distinct
politicians (the shape of the scanner's own sample data). -/
def demoNvdaTrades : List Trade :=
  [⟨"NVDA", "2025-01-02", "Nancy Pelosi", "purchase", 250000, "Democrat",
      "NVIDIA Corporation (NVDA)", "sample"⟩,
   ⟨"NVDA", "2025-01-03", "Dan Crenshaw", "purchase", 75000, "Republican",
      "NVIDIA Corporation (NVDA)", "sample"⟩,
   ⟨"NVDA", "2025-01-04", "Josh Gottheimer", "purchase", 100000, "Democrat",
      "NVIDIA Corporation (NVDA)", "sample"⟩]

/-- C7: for a positive configured threshold, `detect_clusters` emits
exactly one CLUSTER signal per ticker whose purchase count reaches the
threshold and none for tickers below it, and each emitted signal carries
the purchase count, the participating politicians, the total and (floor)
average amount, and the contributing dates of exactly that ticker's
purchases. -/
theorem C7_detect_clusters_emission (cluster_threshold : ℕ) (trades : List Trade)
    (hpos : 1 ≤ cluster_threshold) :
    (∀ tk : String,
      ((detect_clusters cluster_threshold trades).filter
          (fun s => s.ticker = tk)).length =
        if cluster_threshold ≤ purchaseCount trades tk then 1 else 0) ∧
    (∀ s ∈ detect_clusters cluster_threshold trades,
      s.signal_type = "CLUSTER" ∧
      cluster_threshold ≤ purchaseCount trades s.ticker ∧
      s.count = some (purchaseCount trades s.ticker) ∧
      s.politicians = some (((purchasesOf trades).filter
        (fun t => t.ticker = s.ticker)).map (fun t => t.representative)) ∧
      s.total_amount = some ((((purchasesOf trades).filter
        (fun t => t.ticker = s.ticker)).map (fun t => t.amount)).sum) ∧
      s.avg_amount = some (Int.fdiv
        ((((purchasesOf trades).filter (fun t => t.ticker = s.ticker)).map
          (fun t => t.amount)).sum)
        (purchaseCount trades s.ticker)) ∧
      s.dates = some (((purchasesOf trades).filter
        (fun t => t.ticker = s.ticker)).map (fun t => t.transaction_date))) := by
  constructor
  · intro tk
    unfold detect_clusters
    rw [← List.countP_eq_length_filter, List.countP_map]
    have hcongr :
        List.countP
          ((fun s : Signal => decide (s.ticker = tk)) ∘
            (fun u : String =>
              ({ signal_type := "CLUSTER", ticker := u,
                 count := some ((purchasesOf trades).filter (fun t => t.ticker = u)).length,
                 politicians := some (((purchasesOf trades).filter
                   (fun t => t.ticker = u)).map (fun t => t.representative)),
                 total_amount := some ((((purchasesOf trades).filter
                   (fun t => t.ticker = u)).map (fun t => t.amount)).sum),
                 avg_amount := some (Int.fdiv
                   ((((purchasesOf trades).filter (fun t => t.ticker = u)).map
                     (fun t => t.amount)).sum)
                   ((purchasesOf trades).filter (fun t => t.ticker = u)).length),
                 dates := some (((purchasesOf trades).filter
                   (fun t => t.ticker = u)).map (fun t => t.transaction_date)),
                 trades := some ((purchasesOf trades).filter (fun t => t.ticker = u)),
                 priority := 1 } : Signal)))
          ((firstSeen ((purchasesOf trades).map (fun t => t.ticker))).filter
            (fun u => cluster_threshold ≤
              ((purchasesOf trades).filter (fun t => t.ticker = u)).length)) =
        List.countP (fun u => decide (u = tk))
          ((firstSeen ((purchasesOf trades).map (fun t => t.ticker))).filter
            (fun u => cluster_threshold ≤
              ((purchasesOf trades).filter (fun t => t.ticker = u)).length)) := by
      apply List.countP_congr
      intro u _
      constructor
      · intro h; exact h
      · intro h; exact h
    rw [hcongr]
    by_cases hth : cluster_threshold ≤ purchaseCount trades tk
    · rw [if_pos hth]
      apply countP_eq_one_of_nodup_of_mem
      · exact (nodup_firstSeen _).filter _
      · rw [List.mem_filter]
        refine ⟨?_, by simpa [purchaseCount] using hth⟩
        rw [mem_firstSeen]
        have hlen : 0 < ((purchasesOf trades).filter (fun t => t.ticker = tk)).length := by
          have := Nat.le_trans hpos hth
          simpa [purchaseCount] using Nat.lt_of_lt_of_le Nat.zero_lt_one this
        rcases List.exists_mem_of_length_pos hlen with ⟨t, ht⟩
        rcases List.mem_filter.mp ht with ⟨ht1, ht2⟩
        have : t.ticker = tk := by simpa using ht2
        exact this ▸ List.mem_map_of_mem (fun t => t.ticker) ht1
    · rw [if_neg hth]
      rw [List.countP_eq_zero]
      intro u hu
      rcases List.mem_filter.mp hu with ⟨_, h2⟩
      simp only [decide_eq_true_eq]
      rintro rfl
      exact hth (by simpa [purchaseCount] using h2)
  · intro s hs
    unfold detect_clusters at hs
    rcases List.mem_map.mp hs with ⟨tk, htk, rfl⟩
    rcases List.mem_filter.mp htk with ⟨_, h2⟩
    refine ⟨rfl, by simpa [purchaseCount] using h2, rfl, rfl, rfl, rfl, rfl⟩

/-- C7 witness: three NVDA purchases from three distinct politicians with
threshold 3 produce exactly one CLUSTER signal, and its count is 3. -/
theorem C7_detect_clusters_emission_witness :
    ((detect_clusters 3 demoNvdaTrades).filter (fun s => s.ticker = "NVDA")).length = 1 ∧
    (detect_clusters 3 demoNvdaTrades).map (fun s => s.count) = [some 3] := by
  constructor
  · have h := (C7_detect_clusters_emission 3 demoNvdaTrades (by decide)).1 "NVDA"
    rw [h]
    decide
  · decide

/-- Half-even rounding moves a value by at most one half. -/
theorem abs_roundHalfEven_sub_le (q : ℚ) : |(roundHalfEven q : ℚ) - q| ≤ 1/2 := by
  have h0 : (0:ℚ) ≤ q - ⌊q⌋ := sub_nonneg.mpr (Int.floor_le q)
  have h1 : q - ⌊q⌋ < 1 := by
    have := Int.lt_floor_add_one q
    linarith
  unfold roundHalfEven
  split_ifs with ha hb hc
  · rw [abs_sub_comm, abs_of_nonneg h0]; linarith
  · push_cast
    rw [abs_of_nonneg (by linarith)]
    linarith
  · rw [abs_sub_comm, abs_of_nonneg h0]; linarith
  · push_cast
    rw [abs_of_nonneg (by linarith)]
    linarith

/-- Two-decimal rounding moves a value by at most one hundredth. -/
theorem abs_round2_sub_le (q : ℚ) : |round2 q - q| ≤ centi := by
  unfold round2 centi
  have h := abs_roundHalfEven_sub_le (q * 100)
  have heq : (roundHalfEven (q * 100) : ℚ) / 100 - q =
      ((roundHalfEven (q * 100) : ℚ) - q * 100) / 100 := by ring
  rw [heq, abs_div, abs_of_pos (by norm_num : (0:ℚ) < 100)]
  linarith

/-- Purchase record assembled by `congress_buys_strategy.py` from the two
upstream feeds. -/
structure Purchase where
  ticker : String
  politician : String
  amount : ℤ
  date : String
  chamber : String
deriving DecidableEq

/-- `ticker_data[ticker]['total_amount']`: the summed amount of one
ticker's purchases. -/
def tickerTotal (P : List Purchase) (tk : String) : ℤ :=
  ((P.filter (fun p => p.ticker = tk)).map (fun p => p.amount)).sum

/-- `ticker_data[ticker]['count']`. -/
def tickerCount (P : List Purchase) (tk : String) : ℕ :=
  (P.filter (fun p => p.ticker = tk)).length

/-- The dict keys of `ticker_data` in insertion order. -/
def aggTickers (P : List Purchase) : List String := firstSeen (P.map (fun p => p.ticker))

/-- `total_value = sum(data['total_amount'] for data in ticker_data.values())`. -/
def agg_total_value (P : List Purchase) : ℤ := ((aggTickers P).map (tickerTotal P)).sum

/-- The pre-round weight `(data['total_amount'] / total_value) * 100`. -/
def aggExactWeight (P : List Purchase) (tk : String) : ℚ :=
  ((tickerTotal P tk : ℚ) / (agg_total_value P : ℚ)) * 100

/-- One output row of `calculate_portfolio_weights`.  Python's
`list(set(...))` iterates in unspecified order, so of the `politicians`
payload only the distinct count is modelled. -/
structure AggPosition where
  ticker : String
  weight : ℚ
  total_amount : ℤ
  purchase_count : ℕ
  num_politicians : ℕ
deriving DecidableEq

/-- The portfolio row of one ticker. -/
def mkAggPosition (P : List Purchase) (tk : String) : AggPosition :=
  { ticker := tk,
    weight := round2 (aggExactWeight P tk),
    total_amount := tickerTotal P tk,
    purchase_count := tickerCount P tk,
    num_politicians :=
      (firstSeen ((P.filter (fun p => p.ticker = tk)).map (fun p => p.politician))).length }

/-- Sort key of the aggregate portfolio: descending weight. -/
def aggWeightGE (a b : AggPosition) : Prop := b.weight ≤ a.weight

instance : DecidableRel aggWeightGE := fun a b => inferInstanceAs (Decidable (b.weight ≤ a.weight))

instance : IsTotal AggPosition aggWeightGE := ⟨fun a b => le_total b.weight a.weight⟩

instance : IsTrans AggPosition aggWeightGE := ⟨fun _ _ _ h1 h2 => le_trans h2 h1⟩

/-- The portfolio list built by `calculate_portfolio_weights` (one row per
distinct ticker, sorted by weight descending; Python's stable sort is
modelled by insertion sort). -/
def aggPortfolio (P : List Purchase) : List AggPosition :=
  List.insertionSort aggWeightGE ((aggTickers P).map (mkAggPosition P))

/-- `calculate_portfolio_weights` of `congress_buys_strategy.py`.  The
weight line divides by `total_value` with no guard: with at least one
ticker and a zero total the first loop iteration raises
`ZeroDivisionError`, modelled as `none`. -/
def calculate_portfolio_weights (P : List Purchase) : Option (List AggPosition) :=
  if P ≠ [] ∧ agg_total_value P = 0 then none else some (aggPortfolio P)

/-- Sums of integer casts are casts of integer sums. -/
theorem list_sum_intCast (f : String → ℤ) (l : List String) :
    (l.map (fun tk => ((f tk : ℤ) : ℚ))).sum = (((l.map f).sum : ℤ) : ℚ) := by
  induction l with
  | nil => simp
  | cons a l ih => simp [ih]

/-- With a non-zero total, the exact (pre-rounding) weights over the
ticker list sum to exactly 100. -/
theorem sum_aggExactWeight (P : List Purchase) (h : agg_total_value P ≠ 0) :
    ((aggTickers P).map (aggExactWeight P)).sum = 100 := by
  have hfactor : ∀ l : List String,
      (l.map (aggExactWeight P)).sum =
        ((l.map (fun tk => (tickerTotal P tk : ℚ))).sum / (agg_total_value P : ℚ)) * 100 := by
    intro l
    induction l with
    | nil => simp
    | cons a l ih =>
      simp only [List.map_cons, List.sum_cons, ih, aggExactWeight]
      ring
  rw [hfactor, list_sum_intCast (tickerTotal P) (aggTickers P)]
  unfold agg_total_value at h ⊢
  rw [div_self (by exact_mod_cast h), one_mul]

/-- Summed two-decimal rounding drifts by at most a hundredth per entry. -/
theorem sum_round2_drift (P : List Purchase) :
    ∀ l : List String,
      |((l.map (fun tk => round2 (aggExactWeight P tk))).sum) -
          ((l.map (aggExactWeight P)).sum)| ≤ (l.length : ℚ) * centi := by
  intro l
  induction l with
  | nil => simp
  | cons a l ih =>
    simp only [List.map_cons, List.sum_cons, List.length_cons]
    have h1 := abs_round2_sub_le (aggExactWeight P a)
    have htri :
        |round2 (aggExactWeight P a) + ((l.map (fun tk => round2 (aggExactWeight P tk))).sum) -
            (aggExactWeight P a + (l.map (aggExactWeight P)).sum)| ≤
          |round2 (aggExactWeight P a) - aggExactWeight P a| +
            |((l.map (fun tk => round2 (aggExactWeight P tk))).sum) -
              (l.map (aggExactWeight P)).sum| := by
      have heq :
          round2 (aggExactWeight P a) + ((l.map (fun tk => round2 (aggExactWeight P tk))).sum) -
              (aggExactWeight P a + (l.map (aggExactWeight P)).sum) =
            (round2 (aggExactWeight P a) - aggExactWeight P a) +
              (((l.map (fun tk => round2 (aggExactWeight P tk))).sum) -
                (l.map (aggExactWeight P)).sum) := by ring
      rw [heq]
      exact abs_add _ _
    calc |round2 (aggExactWeight P a) + ((l.map (fun tk => round2 (aggExactWeight P tk))).sum) -
            (aggExactWeight P a + (l.map (aggExactWeight P)).sum)|
        ≤ |round2 (aggExactWeight P a) - aggExactWeight P a| +
            |((l.map (fun tk => round2 (aggExactWeight P tk))).sum) -
              (l.map (aggExactWeight P)).sum| := htri
      _ ≤ centi + (l.length : ℚ) * centi := add_le_add h1 ih
      _ = ((l.length : ℚ) + 1) * centi := by ring
      _ = (((l.length + 1 : ℕ)) : ℚ) * centi := by push_cast; ring

/-- C4: with at least one purchase and a positive total, the aggregate
portfolio succeeds, each row's weight is the rounded
`100 × ticker_total / total`, the rows are sorted by descending weight,
and the rounded weights sum to 100 give or take a hundredth per row. -/
theorem C4_aggregate_weights (P : List Purchase) (hne : P ≠ [])
    (hposT : 0 < agg_total_value P) :
    calculate_portfolio_weights P = some (aggPortfolio P) ∧
    (∀ pos ∈ aggPortfolio P,
      pos.weight = round2 ((tickerTotal P pos.ticker : ℚ) / (agg_total_value P : ℚ) * 100)) ∧
    List.Sorted aggWeightGE (aggPortfolio P) ∧
    |((aggPortfolio P).map (fun pos => pos.weight)).sum - 100| ≤
      ((aggPortfolio P).length : ℚ) * centi := by
  have hz : agg_total_value P ≠ 0 := ne_of_gt hposT
  refine ⟨?_, ?_, List.sorted_insertionSort aggWeightGE _, ?_⟩
  · unfold calculate_portfolio_weights
    rw [if_neg]
    rintro ⟨-, h0⟩
    exact hz h0
  · intro pos hpos'
    have hmem : pos ∈ (aggTickers P).map (mkAggPosition P) :=
      ((List.perm_insertionSort aggWeightGE _).mem_iff).mp hpos'
    rcases List.mem_map.mp hmem with ⟨tk, _, rfl⟩
    rfl
  · have hperm : List.Perm (aggPortfolio P) ((aggTickers P).map (mkAggPosition P)) :=
      List.perm_insertionSort aggWeightGE _
    have hmapperm := hperm.map (fun pos => pos.weight)
    rw [hmapperm.sum_eq, hperm.length_eq, List.map_map, List.length_map]
    have hcomp : ((fun pos : AggPosition => pos.weight) ∘ mkAggPosition P) =
        (fun tk => round2 (aggExactWeight P tk)) := rfl
    rw [hcomp]
    have h100 := sum_aggExactWeight P hz
    have hdrift := sum_round2_drift P (aggTickers P)
    rw [← h100]
    exact hdrift

/-- Aggregate demo input with ticker totals 100, 300 and 600. -/
def demoAgg : List Purchase :=
  [⟨"AAA", "P1", 100, "2025-01-01", "House"⟩,
   ⟨"BBB", "P2", 300, "2025-01-02", "House"⟩,
   ⟨"CCC", "P3", 600, "2025-01-03", "Senate"⟩]

/-- C4 witness: ticker totals [100, 300, 600] produce a successful sorted
portfolio with per-ticker weights 10, 30 and 60. -/
theorem C4_aggregate_weights_witness :
    calculate_portfolio_weights demoAgg = some (aggPortfolio demoAgg) ∧
    List.Sorted aggWeightGE (aggPortfolio demoAgg) ∧
    round2 ((tickerTotal demoAgg "AAA" : ℚ) / (agg_total_value demoAgg : ℚ) * 100) = 10 ∧
    round2 ((tickerTotal demoAgg "BBB" : ℚ) / (agg_total_value demoAgg : ℚ) * 100) = 30 ∧
    round2 ((tickerTotal demoAgg "CCC" : ℚ) / (agg_total_value demoAgg : ℚ) * 100) = 60 := by
  have h := C4_aggregate_weights demoAgg (by decide) (by decide)
  refine ⟨h.1, h.2.2.1, ?_, ?_, ?_⟩
  · have e1 : tickerTotal demoAgg "AAA" = 100 := by decide
    have eT : agg_total_value demoAgg = 1000 := by decide
    rw [e1, eT]
    norm_num [round2, roundHalfEven]
  · have e1 : tickerTotal demoAgg "BBB" = 300 := by decide
    have eT : agg_total_value demoAgg = 1000 := by decide
    rw [e1, eT]
    norm_num [round2, roundHalfEven]
  · have e1 : tickerTotal demoAgg "CCC" = 600 := by decide
    have eT : agg_total_value demoAgg = 1000 := by decide
    rw [e1, eT]
    norm_num [round2, roundHalfEven]

/-- Trade row assembled by `dan_meuser_strategy.fetch_dan_meuser_trades`
(type already normalized to BUY/SELL/UNKNOWN). -/
structure MTrade where
  ticker : String
  date : String
  transaction_type : String
  amount : ℤ
  asset_description : String
  disclosure_date : String
deriving DecidableEq

/-- Signed contribution of one trade to its ticker's running net amount:
`+amount` on BUY, `-amount` on SELL, nothing on UNKNOWN. -/
def signedAmount (t : MTrade) : ℤ :=
  if t.transaction_type = "BUY" then t.amount
  else if t.transaction_type = "SELL" then -t.amount
  else 0

/-- `positions[ticker]['net_amount']` after the accumulation loop. -/
def netAmount (trades : List MTrade) (tk : String) : ℤ :=
  ((trades.filter (fun t => t.ticker = tk)).map signedAmount).sum

/-- `positions[ticker]['buys']`. -/
def totalBuys (trades : List MTrade) (tk : String) : ℤ :=
  (((trades.filter (fun t => t.ticker = tk)).filter
    (fun t => t.transaction_type = "BUY")).map (fun t => t.amount)).sum

/-- `positions[ticker]['sells']`. -/
def totalSells (trades : List MTrade) (tk : String) : ℤ :=
  (((trades.filter (fun t => t.ticker = tk)).filter
    (fun t => t.transaction_type = "SELL")).map (fun t => t.amount)).sum

/-- `positions[ticker]['last_trade']`: running maximum of the ticker's
date strings (`if not last_trade or date > last_trade`). -/
def lastTrade (trades : List MTrade) (tk : String) : Option String :=
  (trades.filter (fun t => t.ticker = tk)).foldl
    (fun acc t =>
      match acc with
      | none => some t.date
      | some d => if d < t.date then some t.date else some d) none

/-- The `positions` dict keys in insertion order. -/
def mirrorTickers (trades : List MTrade) : List String :=
  firstSeen (trades.map (fun t => t.ticker))

/-- Tickers retained as held positions: strictly positive net amount. -/
def heldTickers (trades : List MTrade) : List String :=
  (mirrorTickers trades).filter (fun tk => 0 < netAmount trades tk)

/-- `total_value`: the summed net amount over the held positions only. -/
def mirror_total_value (trades : List MTrade) : ℤ :=
  ((heldTickers trades).map (netAmount trades)).sum

/-- The weight line of `calculate_current_portfolio`:
`round((pos / total_value) * 100, 2) if total_value > 0 else 0`. -/
def mirrorWeight (trades : List MTrade) (tk : String) : ℚ :=
  if 0 < mirror_total_value trades then
    round2 (((netAmount trades tk : ℚ) / (mirror_total_value trades : ℚ)) * 100)
  else 0

/-- One row of the mirror portfolio. -/
structure MPosition where
  ticker : String
  estimated_position : ℤ
  total_buys : ℤ
  total_sells : ℤ
  last_trade_date : Option String
  status : String
  weight : ℚ
deriving DecidableEq

/-- The portfolio row of one held ticker (status is always HOLDING). -/
def mkMPosition (trades : List MTrade) (tk : String) : MPosition :=
  { ticker := tk,
    estimated_position := netAmount trades tk,
    total_buys := totalBuys trades tk,
    total_sells := totalSells trades tk,
    last_trade_date := lastTrade trades tk,
    status := "HOLDING",
    weight := mirrorWeight trades tk }

/-- Sort key of the mirror portfolio: descending weight. -/
def mirrorGE (a b : MPosition) : Prop := b.weight ≤ a.weight

instance : DecidableRel mirrorGE := fun a b => inferInstanceAs (Decidable (b.weight ≤ a.weight))

instance : IsTotal MPosition mirrorGE := ⟨fun a b => le_total b.weight a.weight⟩

instance : IsTrans MPosition mirrorGE := ⟨fun _ _ _ h1 h2 => le_trans h2 h1⟩

/-- `calculate_current_portfolio` of `dan_meuser_strategy.py`: one HOLDING
row per ticker with positive net amount, weighted against the held total,
sorted by descending weight. -/
def calculate_current_portfolio (trades : List MTrade) : List MPosition :=
  List.insertionSort mirrorGE ((heldTickers trades).map (mkMPosition trades))

/-- A signed sum splits into the buys minus the sells. -/
theorem sum_signedAmount_split : ∀ l : List MTrade,
    (l.map signedAmount).sum =
      ((l.filter (fun t => t.transaction_type = "BUY")).map (fun t => t.amount)).sum -
        ((l.filter (fun t => t.transaction_type = "SELL")).map (fun t => t.amount)).sum := by
  intro l
  induction l with
  | nil => simp
  | cons t l ih =>
    by_cases hB : t.transaction_type = "BUY"
    · have hS : ¬(t.transaction_type = "SELL") := by rw [hB]; simp
      simp [List.filter_cons, signedAmount, hB, hS, ih]
      ring
    · by_cases hS : t.transaction_type = "SELL"
      · simp [List.filter_cons, signedAmount, hB, hS, ih]
        ring
      · simp [List.filter_cons, signedAmount, hB, hS, ih]

/-- C1: the mirror portfolio nets buys minus sells per ticker (UNKNOWN
rows contribute nothing), retains exactly the tickers with strictly
positive net amount as HOLDING rows (net 0 is excluded), weights each row
by the rounded `100 × net / total` with 0 when the total is not positive,
and every per-ticker quantity (net amount, held-ticker membership, total,
weight) is unchanged under any reordering of the trade list — in
particular under re-interleaving trades across tickers. -/
theorem C1_mirror_portfolio (trades trades' : List MTrade)
    (hperm : List.Perm trades trades') :
    (∀ tk, netAmount trades tk = totalBuys trades tk - totalSells trades tk) ∧
    (∀ pos ∈ calculate_current_portfolio trades,
      pos.status = "HOLDING" ∧
      pos.estimated_position = netAmount trades pos.ticker ∧
      0 < pos.estimated_position ∧
      pos.weight = mirrorWeight trades pos.ticker) ∧
    (∀ tk, (∃ pos ∈ calculate_current_portfolio trades, pos.ticker = tk) ↔
      (tk ∈ trades.map (fun t => t.ticker) ∧ 0 < netAmount trades tk)) ∧
    (∀ tk, mirrorWeight trades tk =
      if 0 < mirror_total_value trades then
        round2 ((netAmount trades tk : ℚ) / (mirror_total_value trades : ℚ) * 100)
      else 0) ∧
    (∀ tk, netAmount trades tk = netAmount trades' tk) ∧
    (∀ tk, tk ∈ heldTickers trades ↔ tk ∈ heldTickers trades') ∧
    mirror_total_value trades = mirror_total_value trades' ∧
    (∀ tk, mirrorWeight trades tk = mirrorWeight trades' tk) := by
  have hnet : ∀ tk, netAmount trades tk = netAmount trades' tk := by
    intro tk
    exact ((hperm.filter (fun t => decide (t.ticker = tk))).map signedAmount).sum_eq
  have hheld : ∀ tk, tk ∈ heldTickers trades ↔ tk ∈ heldTickers trades' := by
    intro tk
    unfold heldTickers mirrorTickers
    rw [List.mem_filter, List.mem_filter, mem_firstSeen, mem_firstSeen,
      (hperm.map (fun t => t.ticker)).mem_iff, hnet tk]
  have htot : mirror_total_value trades = mirror_total_value trades' := by
    unfold mirror_total_value
    have hnodup : (heldTickers trades).Nodup := (nodup_firstSeen _).filter _
    have hnodup' : (heldTickers trades').Nodup := (nodup_firstSeen _).filter _
    have hpermheld : List.Perm (heldTickers trades) (heldTickers trades') :=
      (List.perm_ext_iff_of_nodup hnodup hnodup').mpr hheld
    rw [(hpermheld.map (netAmount trades)).sum_eq]
    exact congrArg List.sum (List.map_congr_left (fun tk _ => hnet tk))
  refine ⟨?_, ?_, ?_, fun tk => rfl, hnet, hheld, htot, ?_⟩
  · intro tk
    exact sum_signedAmount_split (trades.filter (fun t => t.ticker = tk))
  · intro pos hpos
    have hmem : pos ∈ (heldTickers trades).map (mkMPosition trades) :=
      ((List.perm_insertionSort mirrorGE _).mem_iff).mp hpos
    rcases List.mem_map.mp hmem with ⟨tk, htk, rfl⟩
    have hposit : 0 < netAmount trades tk := by
      simpa using (List.mem_filter.mp htk).2
    exact ⟨rfl, rfl, hposit, rfl⟩
  · intro tk
    constructor
    · rintro ⟨pos, hpos, rfl⟩
      have hmem : pos ∈ (heldTickers trades).map (mkMPosition trades) :=
        ((List.perm_insertionSort mirrorGE _).mem_iff).mp hpos
      rcases List.mem_map.mp hmem with ⟨tk, htk, rfl⟩
      rcases List.mem_filter.mp htk with ⟨h1, h2⟩
      refine ⟨?_, by simpa using h2⟩
      rw [mirrorTickers, mem_firstSeen] at h1
      exact h1
    · rintro ⟨h1, h2⟩
      refine ⟨mkMPosition trades tk, ?_, rfl⟩
      apply ((List.perm_insertionSort mirrorGE _).mem_iff).mpr
      apply List.mem_map_of_mem
      rw [heldTickers, List.mem_filter, mirrorTickers, mem_firstSeen]
      exact ⟨h1, by simpa using h2⟩
  · intro tk
    unfold mirrorWeight
    rw [hnet tk, htot]

/-- Mirror demo: buy then sell on two tickers, interleaved one way. -/
def demoMirrorTrades : List MTrade :=
  [⟨"XYZ", "2025-01-01", "BUY", 50000, "XYZ Corp", ""⟩,
   ⟨"ABC", "2025-01-02", "BUY", 10000, "ABC Corp", ""⟩,
   ⟨"XYZ", "2025-02-01", "SELL", 20000, "XYZ Corp", ""⟩,
   ⟨"ABC", "2025-02-02", "SELL", 10000, "ABC Corp", ""⟩]

/-- The same trades interleaved the other way (per-ticker order intact). -/
def demoMirrorPerm : List MTrade :=
  [⟨"XYZ", "2025-01-01", "BUY", 50000, "XYZ Corp", ""⟩,
   ⟨"XYZ", "2025-02-01", "SELL", 20000, "XYZ Corp", ""⟩,
   ⟨"ABC", "2025-01-02", "BUY", 10000, "ABC Corp", ""⟩,
   ⟨"ABC", "2025-02-02", "SELL", 10000, "ABC Corp", ""⟩]

/-- C1 witness: buying 50k and selling 20k of XYZ leaves a held position
of net 30k; buying and selling 10k of ABC nets 0 and ABC is excluded; the
nets agree across the re-interleaved trade list. -/
theorem C1_mirror_portfolio_witness :
    netAmount demoMirrorTrades "XYZ" = 30000 ∧
    netAmount demoMirrorTrades "ABC" = 0 ∧
    (∃ pos ∈ calculate_current_portfolio demoMirrorTrades, pos.ticker = "XYZ") ∧
    (¬∃ pos ∈ calculate_current_portfolio demoMirrorTrades, pos.ticker = "ABC") ∧
    (∀ tk, netAmount demoMirrorTrades tk = netAmount demoMirrorPerm tk) := by
  have h := C1_mirror_portfolio demoMirrorTrades demoMirrorPerm (by decide)
  refine ⟨by decide, by decide, ?_, ?_, h.2.2.2.2.1⟩
  · exact (h.2.2.1 "XYZ").mpr ⟨by decide, by decide⟩
  · intro hex
    have h2 := ((h.2.2.1 "ABC").mp hex).2
    have h0 : netAmount demoMirrorTrades "ABC" = 0 := by decide
    omega

/-- C10: aggregate-mode `calculate_portfolio_weights` has no zero guard —
a non-empty all-zero-amount purchase list (possible, since unparseable
amounts parse to 0) makes the weight line divide by zero and the call
fails (`none`) instead of returning zero weights; the mirror-mode engine
is the one with the `0 if total is 0` guard, returning weight 0 whenever
its held total is not positive. -/
theorem C10_aggregate_zero_division (P : List Purchase) (hne : P ≠ [])
    (hz : ∀ p ∈ P, p.amount = 0) :
    calculate_portfolio_weights P = none ∧
    (∀ (trades : List MTrade) (tk : String),
      mirror_total_value trades ≤ 0 → mirrorWeight trades tk = 0) := by
  constructor
  · have h0 : agg_total_value P = 0 := by
      apply List.sum_eq_zero
      intro x hx
      rcases List.mem_map.mp hx with ⟨tk, _, rfl⟩
      apply List.sum_eq_zero
      intro y hy
      rcases List.mem_map.mp hy with ⟨p, hp, rfl⟩
      exact hz p (List.mem_filter.mp hp).1
    unfold calculate_portfolio_weights
    rw [if_pos ⟨hne, h0⟩]
  · intro trades tk htot
    unfold mirrorWeight
    rw [if_neg (by omega)]

/-- One purchase whose amount parsed to 0. -/
def demoZeroAgg : List Purchase := [⟨"AAPL", "P1", 0, "2025-01-01", "House"⟩]

/-- C10 witness: the single zero-amount purchase makes the aggregate
engine fail while the mirror guard stays total. -/
theorem C10_aggregate_zero_division_witness :
    calculate_portfolio_weights demoZeroAgg = none ∧
    (∀ (trades : List MTrade) (tk : String),
      mirror_total_value trades ≤ 0 → mirrorWeight trades tk = 0) :=
  C10_aggregate_zero_division demoZeroAgg (by decide) (by decide)

/-- Tracking record of `performance_tracker.py`.  Calendar dates are
modelled as integer day numbers, so `(datetime.now() - entry).days`
becomes `now - entry_date`; prices are optional rationals (`None` models a
missing value). -/
structure TrackedSignal where
  signal_id : String
  ticker : String
  signal_type : String
  politician : String
  entry_date : ℤ
  entry_price : Option ℚ
  amount : ℤ
  status : String
  days_tracked : ℤ
  current_price : Option ℚ := none
  return_pct : Option ℚ := none
  exit_date : Option ℤ := none
  exit_price : Option ℚ := none
deriving DecidableEq

/-- The per-record body of `update_tracked_signals`: skip non-tracking
records, skip falsy entry prices (`if not entry_price`), skip falsy
current prices (`if current_price:` — `None` and `0.0` both fail), then
refresh price, rounded return and day count, and close when the position
is 30 days old or the raw return exceeds 20. -/
def update_signal (now : ℤ) (price : String → Option ℚ) (s : TrackedSignal) :
    TrackedSignal :=
  if s.status ≠ "tracking" then s
  else
    match s.entry_price with
    | none => s
    | some ep =>
      if ep = 0 then s
      else
        match price s.ticker with
        | none => s
        | some cp =>
          if cp = 0 then s
          else
            let returns : ℚ := ((cp - ep) / ep) * 100
            let days : ℤ := now - s.entry_date
            let s' := { s with current_price := some cp,
                               return_pct := some (round2 returns),
                               days_tracked := days }
            if 30 ≤ days ∨ 20 < returns then
              { s' with status := "closed", exit_date := some now, exit_price := some cp }
            else s'

/-- `update_tracked_signals`: the loop updates every record in place. -/
def update_tracked_signals (now : ℤ) (price : String → Option ℚ)
    (sigs : List TrackedSignal) : List TrackedSignal :=
  sigs.map (update_signal now price)

/-- C3: a tracking record with a truthy entry price and an available
(truthy) current price transitions to closed exactly when it is at least
30 days old or its raw computed return strictly exceeds 20; and the
transition is one-way — any record already closed is left untouched by an
update cycle, so it can never reopen. -/
theorem C3_tracking_closure (now : ℤ) (price : String → Option ℚ) (s : TrackedSignal)
    (hst : s.status = "tracking") (ep : ℚ) (hep : s.entry_price = some ep)
    (hep0 : ep ≠ 0) (cp : ℚ) (hcp : price s.ticker = some cp) (hcp0 : cp ≠ 0) :
    ((update_signal now price s).status = "closed" ↔
      (30 ≤ now - s.entry_date ∨ 20 < ((cp - ep) / ep) * 100)) ∧
    (∀ t : TrackedSignal, t.status = "closed" → update_signal now price t = t) := by
  constructor
  · by_cases hcond : 30 ≤ now - s.entry_date ∨ 20 < ((cp - ep) / ep) * 100
    · simp [update_signal, hst, hep, hep0, hcp, hcp0, hcond]
    · simp [update_signal, hst, hep, hep0, hcp, hcp0, hcond]
  · intro t ht
    unfold update_signal
    rw [if_pos (by simp [ht])]

/-- C9: when the price lookup returns nothing for a tracking record, the
record is left entirely unchanged — not closed, not errored, still
tracking for the next cycle — and the list update keeps it verbatim. -/
theorem C9_missing_price_noop (now : ℤ) (price : String → Option ℚ) (s : TrackedSignal)
    (hst : s.status = "tracking") (ep : ℚ) (hep : s.entry_price = some ep)
    (hp : price s.ticker = none) :
    update_signal now price s = s ∧
    (update_signal now price s).status = "tracking" ∧
    update_tracked_signals now price [s] = [s] := by
  have key : update_signal now price s = s := by
    unfold update_signal
    rw [if_neg (by simp [hst])]
    rw [hep]
    by_cases hep0 : ep = 0
    · simp [hep0]
    · simp [hep0, hp]
  refine ⟨key, ?_, ?_⟩
  · rw [key, hst]
  · simp [update_tracked_signals, key]

/-- A signal entered at day 0 with entry price 10. -/
def demoSig (entry : ℚ) : TrackedSignal :=
  { signal_id := "XYZ_P_0", ticker := "XYZ", signal_type := "CLUSTER",
    politician := "P", entry_date := 0, entry_price := some entry, amount := 0,
    status := "tracking", days_tracked := 0 }

/-- C3 witness: a signal 31 days old closes even at a negative return, and
a signal at +25% closes after only 2 days. -/
theorem C3_tracking_closure_witness :
    (update_signal 31 (fun _ => some 9) (demoSig 10)).status = "closed" ∧
    (update_signal 2 (fun _ => some 125) (demoSig 100)).status = "closed" := by
  constructor
  · exact ((C3_tracking_closure 31 (fun _ => some 9) (demoSig 10) rfl 10 rfl
      (by norm_num) 9 rfl (by norm_num)).1).mpr (Or.inl (by norm_num [demoSig]))
  · exact ((C3_tracking_closure 2 (fun _ => some 125) (demoSig 100) rfl 100 rfl
      (by norm_num) 125 rfl (by norm_num)).1).mpr (Or.inr (by norm_num))

/-- C9 witness: a missing price leaves the concrete demo record verbatim. -/
theorem C9_missing_price_noop_witness :
    update_signal 5 (fun _ => none) (demoSig 10) = demoSig 10 ∧
    (update_signal 5 (fun _ => none) (demoSig 10)).status = "tracking" ∧
    update_tracked_signals 5 (fun _ => none) [demoSig 10] = [demoSig 10] :=
  C9_missing_price_noop 5 (fun _ => none) (demoSig 10) rfl 10 rfl rfl
